import Mathlib

/-!
# Verification of the appointment layout engine

A shallow embedding of the scheduler's layout engine
(`src/utils/layoutUtils.ts` together with the geometry helpers of
`src/utils/timeUtils.ts`), and proofs of the properties its design
specification states about it.

Modelling conventions:
* a JavaScript `Date` is modelled by its `getTime()` value, an integer
  number of milliseconds (arbitrary-precision `Int`; the engine compares,
  adds and divides these values and never constructs non-integral ones);
  `Date.prototype.getHours` / `getMinutes` are the wall-clock fields of
  that timestamp, i.e. floor-division/remainder by the hour and minute in
  milliseconds;
* pixel values (the results of the `/ SLOT_DURATION * SLOT_HEIGHT`
  formulas) are modelled as exact rationals;
* `Array.prototype.sort` is a stable sort (required by the ECMAScript
  standard); it is modelled by `List.insertionSort`, which is likewise
  stable: an element is inserted *before* the elements it ties with only
  when it preceded them in the input;
* a JavaScript `Map` built by repeated `set` is modelled by an association
  list with overwrite-on-existing-key semantics (`mapSet` / `mapGet`),
  which reproduces `Map.prototype.set/get` and, through `List.dedup`, the
  cardinality of `new Set(map.values())`.
-/

namespace Scheduler

/-- An appointment, as in `src/types/scheduler.ts`, restricted to the three
fields the layout engine reads: `id`, `startTime` (the `getTime()`
milliseconds of the start `Date`) and `duration` (minutes).  All other
fields (client, serviceType, artist, …) are opaque payload that the layout
code never inspects. -/
structure Appointment where
  id : String
  startTime : Int
  duration : Int
deriving DecidableEq

/-- Function `getEndTime` (`layoutUtils.ts` lines 12–16):
`new Date(appointment.startTime.getTime() + appointment.duration * 60 * 1000)`. -/
def getEndTime (appointment : Appointment) : Int :=
  appointment.startTime + appointment.duration * 60 * 1000

/-! ## Time-grid geometry (`src/utils/timeUtils.ts`) -/

/-- Constant `SLOT_HEIGHT` (`timeUtils.ts` line 9): height of each 30-minute slot in px. -/
def SLOT_HEIGHT : ℚ := 60

/-- Constant `SLOT_DURATION` (`timeUtils.ts` line 12): duration of each slot in minutes. -/
def SLOT_DURATION : ℚ := 30

/-- The `Date.prototype.getHours` field of a millisecond timestamp (wall clock). -/
def dateGetHours (t : Int) : Int := t / 3600000 % 24

/-- The `Date.prototype.getMinutes` field of a millisecond timestamp (wall clock). -/
def dateGetMinutes (t : Int) : Int := t / 60000 % 60

/-- Function `calculateTopPosition` (`timeUtils.ts` lines 89–102):
minutes from grid start `(appointmentHour - gridStartHour) * 60 +
appointmentMinute`, converted to pixels by `/ SLOT_DURATION * SLOT_HEIGHT`. -/
def calculateTopPosition (startTime : Int) (gridStartHour : Int) : ℚ :=
  let appointmentHour := dateGetHours startTime
  let appointmentMinute := dateGetMinutes startTime
  let minutesFromStart := (appointmentHour - gridStartHour) * 60 + appointmentMinute
  (minutesFromStart : ℚ) / SLOT_DURATION * SLOT_HEIGHT

/-- Function `calculateHeight` (`timeUtils.ts` lines 110–112):
`(durationMinutes / SLOT_DURATION) * SLOT_HEIGHT`. -/
def calculateHeight (durationMinutes : Int) : ℚ :=
  (durationMinutes : ℚ) / SLOT_DURATION * SLOT_HEIGHT

/-! ## Sorting comparators

`groupOverlappingAppointments` sorts by `a.startTime - b.startTime`
(line 32–34); `assignLanes` sorts by start time and then by
`b.duration - a.duration`, longer first (lines 72–76).  A JS comparator
sort is the unique stable sort for the total preorder "comparator ≤ 0",
which `List.insertionSort` implements. -/

/-- The `groupOverlappingAppointments` comparator returns ≤ 0 on `(a, b)`. -/
def startLE (a b : Appointment) : Prop :=
  a.startTime ≤ b.startTime

instance : DecidableRel startLE := fun a b =>
  inferInstanceAs (Decidable (a.startTime ≤ b.startTime))

instance : IsTotal Appointment startLE :=
  ⟨fun a b => Int.le_total a.startTime b.startTime⟩

instance : IsTrans Appointment startLE :=
  ⟨fun _ _ _ h₁ h₂ => le_trans h₁ h₂⟩

/-- The `assignLanes` comparator returns ≤ 0 on `(a, b)`: earlier start
first, ties broken by longer duration first. -/
def laneBefore (a b : Appointment) : Prop :=
  a.startTime < b.startTime ∨ (a.startTime = b.startTime ∧ b.duration ≤ a.duration)

instance : DecidableRel laneBefore := fun a b =>
  inferInstanceAs (Decidable (_ ∨ _))

instance : IsTotal Appointment laneBefore := by
  constructor
  intro a b
  rcases lt_trichotomy a.startTime b.startTime with h | h | h
  · exact Or.inl (Or.inl h)
  · rcases Int.le_total a.duration b.duration with hd | hd
    · exact Or.inr (Or.inr ⟨h.symm, hd⟩)
    · exact Or.inl (Or.inr ⟨h, hd⟩)
  · exact Or.inr (Or.inl h)

instance : IsTrans Appointment laneBefore := by
  constructor
  rintro a b c (h₁ | ⟨e₁, d₁⟩) (h₂ | ⟨e₂, d₂⟩)
  · exact Or.inl (lt_trans h₁ h₂)
  · exact Or.inl (e₂ ▸ h₁)
  · exact Or.inl (e₁ ▸ h₂)
  · exact Or.inr ⟨e₁.trans e₂, le_trans d₂ d₁⟩

/-- The strict part of `laneBefore`: the `assignLanes` comparator returns
a strictly negative number on `(a, b)`.  When no two events share both
start and duration this is a strict total order, making the sorted group
independent of input order. -/
def laneStrict (a b : Appointment) : Prop :=
  a.startTime < b.startTime ∨ (a.startTime = b.startTime ∧ b.duration < a.duration)

/-- The stable sort by start time used on line 32–34. -/
def sortByStart (appointments : List Appointment) : List Appointment :=
  List.insertionSort startLE appointments

/-- The stable sort by start time / longer-duration-first used on
lines 72–76. -/
def sortByLane (group : List Appointment) : List Appointment :=
  List.insertionSort laneBefore group

/-! ## Overlap grouping (`layoutUtils.ts` lines 26–61) -/

/-- The sweep loop of `groupOverlappingAppointments` (lines 40–58):
`currentGroup` / `currentGroupEnd` are the accumulator; an appointment
joins the current group when it starts strictly before the group's end,
extending the end to the max; otherwise the group is emitted and a fresh
one is started.  The final group is emitted at the end. -/
def groupGo : List Appointment → List Appointment → Int → List (List Appointment)
  | [], currentGroup, _ => [currentGroup]
  | appointment :: rest, currentGroup, currentGroupEnd =>
    if appointment.startTime < currentGroupEnd then
      groupGo rest (currentGroup ++ [appointment])
        (max currentGroupEnd (getEndTime appointment))
    else
      currentGroup :: groupGo rest [appointment] (getEndTime appointment)

/-- Function `groupOverlappingAppointments` (lines 26–61): returns `[]` on empty
input, otherwise seeds the sweep with the first appointment of the
start-sorted list. -/
def groupOverlappingAppointments (appointments : List Appointment) :
    List (List Appointment) :=
  match sortByStart appointments with
  | [] => []
  | first :: rest => groupGo rest [first] (getEndTime first)

/-! ## Lane assignment (`layoutUtils.ts` lines 70–104) -/

/-- The scan of lines 85–91: index of the first lane whose end time is
`≤ appointmentStart`, if any. -/
def findFreeLane (laneEndTimes : List Int) (appointmentStart : Int) : Option Nat :=
  match laneEndTimes with
  | [] => none
  | e :: rest =>
    if e ≤ appointmentStart then some 0
    else (findFreeLane rest appointmentStart).map (· + 1)

/-- One iteration of the loop body (lines 81–101) on the `laneEndTimes`
state: the chosen lane, and the updated lane end times (a fresh lane is
pushed as `0` and then overwritten with the appointment's end, exactly as
lines 94–100 do). -/
def laneStep (laneEndTimes : List Int) (a : Appointment) : Nat × List Int :=
  match findFreeLane laneEndTimes a.startTime with
  | some i => (i, laneEndTimes.set i (getEndTime a))
  | none =>
    (laneEndTimes.length, (laneEndTimes ++ [0]).set laneEndTimes.length (getEndTime a))

/-- Model of `Map.prototype.set`: overwrite the entry with the given key, keeping
its position, or append a new entry. -/
def mapSet (m : List (String × Nat)) (k : String) (v : Nat) : List (String × Nat) :=
  if m.any fun p => decide (p.1 = k) then
    m.map fun p => if p.1 = k then (k, v) else p
  else m ++ [(k, v)]

/-- Model of `Map.prototype.get`, as an `Option`. -/
def mapGet (m : List (String × Nat)) (k : String) : Option Nat :=
  (m.find? fun p => decide (p.1 = k)).map Prod.snd

/-- The loop of lines 81–101 over the sorted group, accumulating the
`lanes` map. -/
def assignAux : List Appointment → List Int → List (String × Nat) → List (String × Nat)
  | [], _, lanes => lanes
  | a :: rest, laneEndTimes, lanes =>
    assignAux rest (laneStep laneEndTimes a).2 (mapSet lanes a.id (laneStep laneEndTimes a).1)

/-- Function `assignLanes` (lines 70–104): sort the group and run the greedy scan
with an initially empty lane list and empty map. -/
def assignLanes (group : List Appointment) : List (String × Nat) :=
  assignAux (sortByLane group) [] []

/-- Model of `new Set(lanes.values()).size` (line 128): number of distinct lane
indices in the map's values. -/
def totalLanesOf (group : List Appointment) : Nat :=
  ((assignLanes group).map Prod.snd).dedup.length

/-! ## Layout composition (`layoutUtils.ts` lines 114–143) -/

/-- Record `AppointmentLayout` of `src/types/scheduler.ts`. -/
structure AppointmentLayout where
  appointment : Appointment
  lane : Nat
  totalLanes : Nat
  top : ℚ
  height : ℚ
deriving DecidableEq

/-- The inner loop of lines 125–139: one layout record per appointment of
the group, with `lanes.get(appointment.id) ?? 0`. -/
def layoutGroup (group : List Appointment) (gridStartHour : Int) :
    List AppointmentLayout :=
  group.map fun appointment =>
    { appointment := appointment
      lane := (mapGet (assignLanes group) appointment.id).getD 0
      totalLanes := totalLanesOf group
      top := calculateTopPosition appointment.startTime gridStartHour
      height := calculateHeight appointment.duration }

/-- Function `calculateAppointmentLayouts` (lines 114–143): group, then push the
per-group layouts in group order (the nested `for` loops are the
concatenation of the per-group lists). -/
def calculateAppointmentLayouts (appointments : List Appointment)
    (gridStartHour : Int) : List AppointmentLayout :=
  ((groupOverlappingAppointments appointments).map fun group =>
    layoutGroup group gridStartHour).flatten

/-! ## Working-hours filter (`layoutUtils.ts` lines 168–188) -/

/-- Function `filterByWorkingHours` (lines 168–188): keep an appointment when
`hour < endHour && (endTimeHour > startHour || (endTimeHour === startHour
&& endTimeMinute > 0)) && hour >= startHour`, where `hour` is the start's
hour field and `endTimeHour`/`endTimeMinute` the end instant's fields. -/
def filterByWorkingHours (appointments : List Appointment)
    (startHour endHour : Int) : List Appointment :=
  appointments.filter fun apt =>
    decide (dateGetHours apt.startTime < endHour ∧
      (startHour < dateGetHours (getEndTime apt) ∨
        (dateGetHours (getEndTime apt) = startHour ∧
          0 < dateGetMinutes (getEndTime apt))) ∧
      startHour ≤ dateGetHours apt.startTime)

/-! ## Semantic vocabulary for the specification's claims -/

/-- Two appointments overlap in time: each starts strictly before the
other ends (half-open ranges `[start, end)`). -/
def overlaps (a b : Appointment) : Prop :=
  a.startTime < getEndTime b ∧ b.startTime < getEndTime a

instance : ∀ a b, Decidable (overlaps a b) := fun _ _ =>
  inferInstanceAs (Decidable (_ ∧ _))

/-- Number of events of `g` that are active at instant `t`
(counting occurrences). -/
def activeAt (g : List Appointment) (t : Int) : Nat :=
  (g.filter fun a => decide (a.startTime ≤ t ∧ t < getEndTime a)).length

/-- The maximum, over the start instants of `g`'s events, of the number of
simultaneously active events.  For half-open intervals this is the
supremum of `activeAt g` over all instants. -/
def cliqueSup (g : List Appointment) : Nat :=
  (g.map fun a => activeAt g a.startTime).foldr max 0

/-- Events `a` and `b` are joined by a transitive chain of pairwise-overlapping
events, every link of which lies in `g`. -/
def ChainIn (g : List Appointment) (a b : Appointment) : Prop :=
  Relation.ReflTransGen (fun x y => x ∈ g ∧ y ∈ g ∧ overlaps x y) a b

/-- Every event of `g` ends no later than any event of `h` starts
(so no event of `g` overlaps one of `h`). -/
def Sep (g h : List Appointment) : Prop :=
  ∀ x ∈ g, ∀ y ∈ h, getEndTime x ≤ y.startTime

/-- Modelled from the spec (§4.1): `topOffset(startTime, gridStartHour,
slotHeightPx, slotDurationMinutes) = ((startHour*60+startMinute) -
gridStartHour*60) / slotDurationMinutes * slotHeightPx`. -/
def specTopOffset (startHour startMinute gridStartHour slotDurationMinutes
    slotHeightPx : ℚ) : ℚ :=
  (startHour * 60 + startMinute - gridStartHour * 60) / slotDurationMinutes * slotHeightPx

/-- Modelled from the spec (§4.1): `height(durationMinutes, slotHeightPx,
slotDurationMinutes) = durationMinutes / slotDurationMinutes * slotHeightPx`. -/
def specHeight (durationMinutes slotDurationMinutes slotHeightPx : ℚ) : ℚ :=
  durationMinutes / slotDurationMinutes * slotHeightPx

/-! ## Instrumented lane assignment

`traceAux` runs the same loop as `assignAux` but records the assignment
as `(appointment, lane)` pairs in processing order and returns the final
lane end times; with distinct ids `assignAux`'s map is its projection. -/

/-- The loop of `assignLanes`, keeping the full trace. -/
def traceAux : List Appointment → List Int → List (Appointment × Nat) →
    List Int × List (Appointment × Nat)
  | [], laneEndTimes, acc => (laneEndTimes, acc)
  | a :: rest, laneEndTimes, acc =>
    traceAux rest (laneStep laneEndTimes a).2 (acc ++ [(a, (laneStep laneEndTimes a).1)])

/-- Forget the appointments, keep `(id, lane)`. -/
def projAssignments (acc : List (Appointment × Nat)) : List (String × Nat) :=
  acc.map fun p => (p.1.id, p.2)

/-- The full trace of `assignLanes` on a group: final lane end times and
the `(appointment, lane)` assignments in processing order. -/
def laneTrace (group : List Appointment) : List Int × List (Appointment × Nat) :=
  traceAux (sortByLane group) [] []

/-- Invariant of the greedy loop state: every assigned lane exists; a
lane's end time bounds the ends of all events assigned to it; events
sharing a lane are pairwise disjoint in assignment order; and some
sub-selection `ws` of the assignments picks, for every lane, the last
event assigned to it (witnessing that every lane end time is the end of
an assigned event). -/
structure TraceInv (laneEndTimes : List Int) (acc : List (Appointment × Nat)) : Prop where
  laneLt : ∀ p ∈ acc, p.2 < laneEndTimes.length
  endLe : ∀ p ∈ acc, getEndTime p.1 ≤ laneEndTimes.getD p.2 0
  disj : acc.Pairwise fun p q => p.2 = q.2 → getEndTime p.1 ≤ q.1.startTime
  cover : ∃ ws : List (Appointment × Nat), ws.Sublist acc ∧
    ws.length = laneEndTimes.length ∧ (ws.map Prod.snd).Nodup ∧
    ∀ p ∈ ws, laneEndTimes.getD p.2 0 = getEndTime p.1

/-! ## Concrete appointments used in the specification's scenarios -/

/-- Event A of the two-fully-overlapping-events scenario: 9:00, 90 min. -/
def apptA : Appointment := ⟨"A", 9 * 3600000, 90⟩

/-- Event B of the two-fully-overlapping-events scenario: 9:00, 150 min. -/
def apptB : Appointment := ⟨"B", 9 * 3600000, 150⟩

/-- Chain scenario A: 9:00–9:45. -/
def chainA : Appointment := ⟨"A", 9 * 3600000, 45⟩

/-- Chain scenario B: 9:30–10:15. -/
def chainB : Appointment := ⟨"B", 9 * 3600000 + 1800000, 45⟩

/-- Chain scenario C: 10:00–10:45. -/
def chainC : Appointment := ⟨"C", 10 * 3600000, 45⟩

/-- A duplicated-id appointment: 0:00, 60 min. -/
def dupX : Appointment := ⟨"x", 0, 60⟩

/-- An appointment that starts at 20:00 and runs 240 min, past midnight. -/
def overnight : Appointment := ⟨"n", 20 * 3600000, 240⟩

/-- An appointment with a negative duration. -/
def negDur : Appointment := ⟨"neg", 9 * 3600000, -30⟩

/-! ## List and option utilities -/

theorem set_append_len (l : List Int) (x y : Int) :
    (l ++ [x]).set l.length y = l ++ [y] := by
  induction l with
  | nil => rfl
  | cons a t ih => simp [ih]

theorem getD_mem {l : List Int} {i : Nat} (h : i < l.length) : l.getD i 0 ∈ l := by
  rw [List.getD_eq_getElem l 0 h]
  exact List.getElem_mem h

theorem getD_set_same {l : List Int} {i : Nat} (x : Int) (h : i < l.length) :
    (l.set i x).getD i 0 = x := by
  rw [List.getD_eq_getElem _ 0 (by simpa using h)]
  simp [List.getElem_set]

theorem getD_set_ne {l : List Int} {i j : Nat} (x : Int) (hne : i ≠ j)
    (hj : j < l.length) : (l.set i x).getD j 0 = l.getD j 0 := by
  rw [List.getD_eq_getElem _ 0 (by simpa using hj), List.getD_eq_getElem _ 0 hj]
  simp [List.getElem_set, hne]

theorem nodup_lt_length_le {xs : List Nat} {n : Nat}
    (hnd : xs.Nodup) (hlt : ∀ x ∈ xs, x < n) : xs.length ≤ n := by
  have h1 : xs.toFinset ⊆ Finset.range n := by
    intro x hx
    exact Finset.mem_range.mpr (hlt x (List.mem_toFinset.mp hx))
  have h2 := Finset.card_le_card h1
  rwa [List.toFinset_card_of_nodup hnd, Finset.card_range] at h2

theorem nodup_lt_mem {xs : List Nat} {n : Nat}
    (hnd : xs.Nodup) (hlen : xs.length = n) (hlt : ∀ x ∈ xs, x < n) :
    ∀ i, i < n → i ∈ xs := by
  have h1 : xs.toFinset ⊆ Finset.range n := fun x hx =>
    Finset.mem_range.mpr (hlt x (List.mem_toFinset.mp hx))
  have h2 : xs.toFinset = Finset.range n := by
    apply Finset.eq_of_subset_of_card_le h1
    rw [List.toFinset_card_of_nodup hnd, hlen, Finset.card_range]
  intro i hi
  exact List.mem_toFinset.mp (h2 ▸ Finset.mem_range.mpr hi)

theorem le_foldr_max {l : List Nat} {x : Nat} (h : x ∈ l) : x ≤ l.foldr max 0 := by
  induction l with
  | nil => cases h
  | cons a t ih =>
    rcases List.mem_cons.mp h with rfl | h
    · exact le_max_left _ _
    · exact le_trans (ih h) (le_max_right _ _)

theorem foldr_max_le {l : List Nat} {n : Nat} (h : ∀ x ∈ l, x ≤ n) :
    l.foldr max 0 ≤ n := by
  induction l with
  | nil => simp
  | cons a t ih =>
    simp only [List.foldr_cons]
    exact max_le (h a (by simp)) (ih fun x hx => h x (List.mem_cons_of_mem _ hx))

theorem foldr_max_mem {l : List Nat} (h : 0 < l.foldr max 0) : l.foldr max 0 ∈ l := by
  induction l with
  | nil => simp at h
  | cons a t ih =>
    simp only [List.foldr_cons] at h ⊢
    rcases Nat.le_total (t.foldr max 0) a with hle | hle
    · rw [max_eq_left hle]
      exact List.mem_cons_self _ _
    · rw [max_eq_right hle] at h ⊢
      exact List.mem_cons_of_mem _ (ih h)

/-! ## `findFreeLane` basics -/

theorem findFreeLane_lt {ends : List Int} {s : Int} {i : Nat}
    (h : findFreeLane ends s = some i) : i < ends.length := by
  induction ends generalizing i with
  | nil => simp [findFreeLane] at h
  | cons e t ih =>
    rw [findFreeLane] at h
    split at h
    · cases h
      simp
    · rcases Option.map_eq_some'.mp h with ⟨j, hj, rfl⟩
      simpa using Nat.succ_lt_succ (ih hj)

theorem findFreeLane_le {ends : List Int} {s : Int} {i : Nat}
    (h : findFreeLane ends s = some i) : ends.getD i 0 ≤ s := by
  induction ends generalizing i with
  | nil => simp [findFreeLane] at h
  | cons e t ih =>
    rw [findFreeLane] at h
    split at h
    · cases h
      simpa using ‹e ≤ s›
    · rcases Option.map_eq_some'.mp h with ⟨j, hj, rfl⟩
      simpa using ih hj

theorem findFreeLane_none {ends : List Int} {s : Int}
    (h : findFreeLane ends s = none) : ∀ e ∈ ends, s < e := by
  induction ends with
  | nil => simp
  | cons e t ih =>
    rw [findFreeLane] at h
    split at h
    · simp at h
    · intro x hx
      rcases List.mem_cons.mp hx with rfl | hx
      · omega
      · exact ih (Option.map_eq_none'.mp h) x hx

/-! ## The `Map` model and the instrumented trace -/

theorem mapSet_not_mem {m : List (String × Nat)} {k : String} {v : Nat}
    (h : ∀ p ∈ m, p.1 ≠ k) : mapSet m k v = m ++ [(k, v)] := by
  have hfalse : (m.any fun p => decide (p.1 = k)) = false := by
    simp only [List.any_eq_false, decide_eq_true_eq]
    exact h
  simp [mapSet, hfalse]

theorem mapGet_proj {acc : List (Appointment × Nat)} {x : Appointment} {i : Nat}
    (hnd : ((acc.map Prod.fst).map (·.id)).Nodup)
    (hmem : (x, i) ∈ acc) :
    mapGet (projAssignments acc) x.id = some i := by
  induction acc with
  | nil => cases hmem
  | cons p t ih =>
    rw [List.map_cons, List.map_cons, List.nodup_cons] at hnd
    rcases List.mem_cons.mp hmem with rfl | hmem
    · simp [mapGet, projAssignments, List.find?_cons_of_pos]
    · have hxid : x.id ∈ (t.map Prod.fst).map (·.id) :=
        List.mem_map_of_mem _ (List.mem_map_of_mem _ hmem)
      have hne : ¬ p.1.id = x.id := fun he => hnd.1 (he ▸ hxid)
      have := ih hnd.2 hmem
      simpa [mapGet, projAssignments, List.find?_cons_of_neg, hne] using this

theorem assignAux_eq_proj :
    ∀ (rest : List Appointment) (ends : List Int) (acc : List (Appointment × Nat)),
    ((acc.map Prod.fst ++ rest).map (·.id)).Nodup →
    assignAux rest ends (projAssignments acc) =
      projAssignments (traceAux rest ends acc).2 := by
  intro rest
  induction rest with
  | nil =>
    intro ends acc _
    rfl
  | cons a t ih =>
    intro ends acc h
    rw [assignAux, traceAux]
    have h' := h
    rw [List.map_append, List.nodup_append] at h'
    have hid : ∀ p ∈ projAssignments acc, p.1 ≠ a.id := by
      intro p hp
      rcases List.mem_map.mp hp with ⟨q, hq, rfl⟩
      have h1 : q.1.id ∈ (acc.map Prod.fst).map (·.id) :=
        List.mem_map_of_mem _ (List.mem_map_of_mem _ hq)
      have h2 : a.id ∈ (a :: t).map (·.id) := by simp
      intro he
      have he' : q.1.id = a.id := he
      rw [he'] at h1
      exact h'.2.2 h1 h2
    have hstep : mapSet (projAssignments acc) a.id (laneStep ends a).1 =
        projAssignments (acc ++ [(a, (laneStep ends a).1)]) := by
      rw [mapSet_not_mem hid, projAssignments, projAssignments, List.map_append]
      rfl
    rw [hstep]
    apply ih
    simpa using h

theorem assignLanes_eq_proj {g : List Appointment}
    (hids : (g.map (·.id)).Nodup) :
    assignLanes g = projAssignments (laneTrace g).2 := by
  have hperm : List.Perm ((sortByLane g).map (·.id)) (g.map (·.id)) :=
    (List.perm_insertionSort laneBefore g).map _
  simpa [assignLanes, laneTrace, projAssignments] using
    assignAux_eq_proj (sortByLane g) [] [] (by simpa using hperm.symm.nodup hids)

/-! ## The greedy loop preserves its invariant -/

theorem start_lt_end {a : Appointment} (h : 0 < a.duration) :
    a.startTime < getEndTime a := by
  unfold getEndTime
  omega

theorem traceAux_spec (full : List Appointment)
    (hpos : ∀ a ∈ full, 0 < a.duration) :
    ∀ (rest : List Appointment) (ends : List Int) (acc : List (Appointment × Nat)),
    acc.map Prod.fst ++ rest = full →
    rest.Pairwise startLE →
    (∀ p ∈ acc, ∀ b ∈ rest, p.1.startTime ≤ b.startTime) →
    TraceInv ends acc →
    TraceInv (traceAux rest ends acc).1 (traceAux rest ends acc).2 ∧
    (traceAux rest ends acc).2.map Prod.fst = full ∧
    ends.length ≤ (traceAux rest ends acc).1.length ∧
    (traceAux rest ends acc).1.length ≤ max ends.length (cliqueSup full) := by
  intro rest
  induction rest with
  | nil =>
    intro ends acc hfull _ _ inv
    refine ⟨inv, ?_, le_refl _, le_max_left _ _⟩
    simpa using hfull
  | cons a t ih =>
    intro ends acc hfull hsort hacc inv
    have hmem_a : a ∈ full := by
      rw [← hfull]
      simp
    have hpos_a : 0 < a.duration := hpos a hmem_a
    have hsort' : t.Pairwise startLE := (List.pairwise_cons.mp hsort).2
    have hhead : ∀ b ∈ t, startLE a b := (List.pairwise_cons.mp hsort).1
    rw [traceAux]
    rcases hfind : findFreeLane ends a.startTime with _ | i
    · -- no free lane: a new lane is created
      have hnone := findFreeLane_none hfind
      have hstep : laneStep ends a = (ends.length, ends ++ [getEndTime a]) := by
        simp [laneStep, hfind, set_append_len]
      rw [hstep]
      have hfull' : (acc ++ [(a, ends.length)]).map Prod.fst ++ t = full := by
        simpa using hfull
      have hacc' : ∀ p ∈ acc ++ [(a, ends.length)], ∀ b ∈ t,
          p.1.startTime ≤ b.startTime := by
        intro p hp b hb
        rcases List.mem_append.mp hp with hp | hp
        · exact hacc p hp b (List.mem_cons_of_mem _ hb)
        · rcases List.mem_singleton.mp hp with rfl
          exact hhead b hb
      obtain ⟨ws, hsub, hlen, hnd, hval⟩ := inv.cover
      have hws_lt : ∀ p ∈ ws, p.2 < ends.length :=
        fun p hp => inv.laneLt p (hsub.subset hp)
      have inv' : TraceInv (ends ++ [getEndTime a]) (acc ++ [(a, ends.length)]) := by
        refine ⟨?_, ?_, ?_, ?_⟩
        · intro p hp
          simp only [List.length_append, List.length_singleton]
          rcases List.mem_append.mp hp with hp | hp
          · have := inv.laneLt p hp
            omega
          · rcases List.mem_singleton.mp hp with rfl
            show ends.length < ends.length + 1
            omega
        · intro p hp
          rcases List.mem_append.mp hp with hp | hp
          · rw [List.getD_append _ _ _ _ (inv.laneLt p hp)]
            exact inv.endLe p hp
          · rcases List.mem_singleton.mp hp with rfl
            rw [List.getD_append_right _ _ _ _ (le_refl _)]
            simp
        · rw [List.pairwise_append]
          refine ⟨inv.disj, by simp, ?_⟩
          intro p hp q hq
          rcases List.mem_singleton.mp hq with rfl
          intro hpe
          exact absurd (inv.laneLt p hp) (by omega)
        · refine ⟨ws ++ [(a, ends.length)], hsub.append (List.Sublist.refl _), ?_, ?_, ?_⟩
          · simp [hlen]
          · rw [List.map_append, List.nodup_append]
            refine ⟨hnd, by simp, ?_⟩
            intro x hx hx2
            rcases List.mem_map.mp hx with ⟨p, hp, rfl⟩
            have := hws_lt p hp
            simp only [List.map_cons, List.map_nil, List.mem_singleton] at hx2
            omega
          · intro p hp
            rcases List.mem_append.mp hp with hp | hp
            · rw [List.getD_append _ _ _ _ (hws_lt p hp)]
              exact hval p hp
            · rcases List.mem_singleton.mp hp with rfl
              rw [List.getD_append_right _ _ _ _ (le_refl _)]
              simp
      have hclique : ends.length + 1 ≤ cliqueSup full := by
        set act : Appointment → Bool :=
          fun x => decide (x.startTime ≤ a.startTime ∧
            a.startTime < getEndTime x) with hact
        have hS_sub : (ws.map Prod.fst ++ [a]).Sublist full := by
          rw [← hfull]
          exact List.Sublist.append (List.Sublist.map _ hsub)
            (List.cons_sublist_cons.mpr (List.nil_sublist t))
        have hS_act : ∀ x ∈ ws.map Prod.fst ++ [a], act x = true := by
          intro x hx
          rcases List.mem_append.mp hx with hx | hx
          · rcases List.mem_map.mp hx with ⟨p, hp, rfl⟩
            have h1 : p.1.startTime ≤ a.startTime :=
              hacc p (hsub.subset hp) a (List.mem_cons_self _ _)
            have h2 : a.startTime < getEndTime p.1 := by
              rw [← hval p hp]
              exact hnone _ (getD_mem (hws_lt p hp))
            simp [hact, h1, h2]
          · rcases List.mem_singleton.mp hx with rfl
            simp [hact, start_lt_end hpos_a]
        have hcount : ((ws.map Prod.fst ++ [a]).filter act).length = ends.length + 1 := by
          rw [List.filter_eq_self.mpr hS_act]
          simp [hlen]
        have h3 : ends.length + 1 ≤ activeAt full a.startTime := by
          rw [activeAt, ← hcount]
          exact (hS_sub.filter act).length_le
        refine le_trans h3 (le_foldr_max ?_)
        exact List.mem_map_of_mem _ hmem_a
      obtain ⟨c1, c2, c3, c4⟩ := ih (ends ++ [getEndTime a]) (acc ++ [(a, ends.length)])
        hfull' hsort' hacc' inv'
      refine ⟨c1, c2, ?_, ?_⟩
      · refine le_trans ?_ c3
        simp
      · refine le_trans c4 ?_
        have hlen' : (ends ++ [getEndTime a]).length = ends.length + 1 := by simp
        rw [hlen', Nat.max_eq_right hclique]
        exact le_max_right _ _
    · -- lane i is free: it is reused
      have hi : i < ends.length := findFreeLane_lt hfind
      have hle : ends.getD i 0 ≤ a.startTime := findFreeLane_le hfind
      have hstep : laneStep ends a = (i, ends.set i (getEndTime a)) := by
        simp [laneStep, hfind]
      rw [hstep]
      have hfull' : (acc ++ [(a, i)]).map Prod.fst ++ t = full := by
        simpa using hfull
      have hacc' : ∀ p ∈ acc ++ [(a, i)], ∀ b ∈ t,
          p.1.startTime ≤ b.startTime := by
        intro p hp b hb
        rcases List.mem_append.mp hp with hp | hp
        · exact hacc p hp b (List.mem_cons_of_mem _ hb)
        · rcases List.mem_singleton.mp hp with rfl
          exact hhead b hb
      have inv' : TraceInv (ends.set i (getEndTime a)) (acc ++ [(a, i)]) := by
        refine ⟨?_, ?_, ?_, ?_⟩
        · intro p hp
          rw [List.length_set]
          rcases List.mem_append.mp hp with hp | hp
          · exact inv.laneLt p hp
          · rcases List.mem_singleton.mp hp with rfl
            exact hi
        · intro p hp
          rcases List.mem_append.mp hp with hp | hp
          · by_cases hpi : p.2 = i
            · rw [hpi, getD_set_same _ hi]
              calc getEndTime p.1 ≤ ends.getD p.2 0 := inv.endLe p hp
                _ = ends.getD i 0 := by rw [hpi]
                _ ≤ a.startTime := hle
                _ ≤ getEndTime a := le_of_lt (start_lt_end hpos_a)
            · rw [getD_set_ne _ (fun h => hpi h.symm) (inv.laneLt p hp)]
              exact inv.endLe p hp
          · rcases List.mem_singleton.mp hp with rfl
            rw [getD_set_same _ hi]
        · rw [List.pairwise_append]
          refine ⟨inv.disj, by simp, ?_⟩
          intro p hp q hq
          rcases List.mem_singleton.mp hq with rfl
          intro hpe
          calc getEndTime p.1 ≤ ends.getD p.2 0 := inv.endLe p hp
            _ = ends.getD i 0 := by rw [hpe]
            _ ≤ a.startTime := hle
        · obtain ⟨ws, hsub, hlen, hnd, hval⟩ := inv.cover
          have hws_lt : ∀ p ∈ ws, p.2 < ends.length :=
            fun p hp => inv.laneLt p (hsub.subset hp)
          have hmem_i : i ∈ ws.map Prod.snd := by
            refine nodup_lt_mem hnd (by simp [hlen]) ?_ i hi
            intro x hx
            rcases List.mem_map.mp hx with ⟨p, hp, rfl⟩
            exact hws_lt p hp
          rcases List.mem_map.mp hmem_i with ⟨q, hqws, hq2⟩
          obtain ⟨ws₁, ws₂, rfl⟩ := List.append_of_mem hqws
          have hmid : ((q.2 :: (ws₁.map Prod.snd ++ ws₂.map Prod.snd))).Nodup := by
            rw [← List.nodup_middle]
            simpa using hnd
          have hnotin : q.2 ∉ ws₁.map Prod.snd ++ ws₂.map Prod.snd :=
            (List.nodup_cons.mp hmid).1
          refine ⟨(ws₁ ++ ws₂) ++ [(a, i)], ?_, ?_, ?_, ?_⟩
          · refine List.Sublist.append (List.Sublist.trans ?_ hsub) (List.Sublist.refl _)
            exact List.Sublist.append (List.Sublist.refl _) (List.sublist_cons_self q ws₂)
          · have : (ws₁ ++ q :: ws₂).length = ends.length := hlen
            simp only [List.length_append, List.length_cons, List.length_set] at this ⊢
            simp
            omega
          · rw [List.map_append, List.map_append, List.nodup_append]
            refine ⟨(List.nodup_cons.mp hmid).2, by simp, ?_⟩
            intro x hx hx2
            simp only [List.map_cons, List.map_nil, List.mem_singleton] at hx2
            rw [hx2, ← hq2] at hx
            exact hnotin hx
          · intro p hp
            rcases List.mem_append.mp hp with hp | hp
            · have hpne : p.2 ≠ i := by
                intro he
                apply hnotin
                rw [← List.map_append, hq2, ← he]
                exact List.mem_map_of_mem _ hp
              have hp' : p ∈ ws₁ ++ q :: ws₂ := by
                rcases List.mem_append.mp hp with h | h
                · exact List.mem_append.mpr (Or.inl h)
                · exact List.mem_append.mpr (Or.inr (List.mem_cons_of_mem _ h))
              rw [getD_set_ne _ (fun h => hpne h.symm) (hws_lt p hp')]
              exact hval p hp'
            · rcases List.mem_singleton.mp hp with rfl
              rw [getD_set_same _ hi]
      obtain ⟨c1, c2, c3, c4⟩ := ih (ends.set i (getEndTime a)) (acc ++ [(a, i)])
        hfull' hsort' hacc' inv'
      refine ⟨c1, c2, ?_, ?_⟩
      · refine le_trans ?_ c3
        simp
      · refine le_trans c4 ?_
        simp

/-! ## Consequences of the invariant -/

theorem activeAt_le_of_inv {ends : List Int} {acc : List (Appointment × Nat)}
    (inv : TraceInv ends acc) (t : Int) :
    activeAt (acc.map Prod.fst) t ≤ ends.length := by
  rw [activeAt, List.filter_map, List.length_map]
  set p : Appointment → Bool :=
    fun a => decide (a.startTime ≤ t ∧ t < getEndTime a) with hp
  have hsubA : (acc.filter (p ∘ Prod.fst)).Sublist acc := List.filter_sublist acc
  have hactA : ∀ q ∈ acc.filter (p ∘ Prod.fst),
      q.1.startTime ≤ t ∧ t < getEndTime q.1 := by
    intro q hq
    have := (List.mem_filter.mp hq).2
    simpa [hp] using this
  have hnodA : ((acc.filter (p ∘ Prod.fst)).map Prod.snd).Nodup := by
    rw [List.Nodup, List.pairwise_map]
    refine List.Pairwise.imp_of_mem ?_ (inv.disj.sublist hsubA)
    intro q r hq hr hqr
    intro heq
    have h1 := hactA q hq
    have h2 := hactA r hr
    have h3 := hqr heq
    omega
  have hltA : ∀ x ∈ (acc.filter (p ∘ Prod.fst)).map Prod.snd, x < ends.length := by
    intro x hx
    rcases List.mem_map.mp hx with ⟨q, hq, rfl⟩
    exact inv.laneLt q (hsubA.subset hq)
  have := nodup_lt_length_le hnodA hltA
  simpa using this

theorem laneTrace_spec {g : List Appointment} (hpos : ∀ a ∈ g, 0 < a.duration) :
    TraceInv (laneTrace g).1 (laneTrace g).2 ∧
    (laneTrace g).2.map Prod.fst = sortByLane g ∧
    (laneTrace g).1.length ≤ cliqueSup (sortByLane g) := by
  have hposS : ∀ a ∈ sortByLane g, 0 < a.duration := fun a ha =>
    hpos a ((List.perm_insertionSort laneBefore g).subset ha)
  have hsorted : (sortByLane g).Pairwise startLE := by
    refine List.Pairwise.imp ?_ (List.sorted_insertionSort laneBefore g)
    intro a b hab
    rcases hab with h | ⟨h, _⟩
    · exact le_of_lt h
    · exact le_of_eq h
  have inv0 : TraceInv [] [] :=
    ⟨by simp, by simp, by simp, ⟨[], by simp, by simp, by simp, by simp⟩⟩
  obtain ⟨c1, c2, _, c4⟩ := traceAux_spec (sortByLane g) hposS (sortByLane g) [] []
    (by simp) hsorted (by simp) inv0
  exact ⟨c1, c2, by simpa using c4⟩

theorem totalLanesOf_eq_trace {g : List Appointment}
    (hpos : ∀ a ∈ g, 0 < a.duration) (hids : (g.map (·.id)).Nodup) :
    totalLanesOf g = (laneTrace g).1.length := by
  obtain ⟨inv, hfst, _⟩ := laneTrace_spec hpos
  obtain ⟨ws, hsub, hlen, hnd, hval⟩ := inv.cover
  have hvals : (assignLanes g).map Prod.snd = (laneTrace g).2.map Prod.snd := by
    rw [assignLanes_eq_proj hids, projAssignments, List.map_map]
    rfl
  rw [totalLanesOf, hvals, ← List.card_toFinset]
  have hsubs : ((laneTrace g).2.map Prod.snd).toFinset =
      Finset.range (laneTrace g).1.length := by
    apply Finset.Subset.antisymm
    · intro x hx
      rcases List.mem_map.mp (List.mem_toFinset.mp hx) with ⟨q, hq, rfl⟩
      exact Finset.mem_range.mpr (inv.laneLt q hq)
    · intro x hx
      have hxws : x ∈ ws.map Prod.snd := by
        refine nodup_lt_mem hnd (by simp [hlen]) ?_ x (Finset.mem_range.mp hx)
        intro y hy
        rcases List.mem_map.mp hy with ⟨q, hq, rfl⟩
        exact inv.laneLt q (hsub.subset hq)
      exact List.mem_toFinset.mpr ((hsub.map Prod.snd).subset hxws)
  rw [hsubs, Finset.card_range]

theorem activeAt_perm {g h : List Appointment} (hperm : g.Perm h) (t : Int) :
    activeAt g t = activeAt h t :=
  (hperm.filter _).length_eq

/-- The greedy lane count of a group of positive-duration,
distinct-id appointments is exactly the maximum number of simultaneously
active events over all instants. -/
theorem group_lanes_optimal {g : List Appointment}
    (hpos : ∀ a ∈ g, 0 < a.duration) (hids : (g.map (·.id)).Nodup) :
    (∀ t, activeAt g t ≤ totalLanesOf g) ∧
    (∃ t, activeAt g t = totalLanesOf g) := by
  obtain ⟨inv, hfst, hclique⟩ := laneTrace_spec hpos
  have hperm : (sortByLane g).Perm g := List.perm_insertionSort laneBefore g
  have htl := totalLanesOf_eq_trace hpos hids
  have hub : ∀ t, activeAt g t ≤ (laneTrace g).1.length := by
    intro t
    calc activeAt g t = activeAt (sortByLane g) t := activeAt_perm hperm.symm t
      _ = activeAt ((laneTrace g).2.map Prod.fst) t := by rw [hfst]
      _ ≤ _ := activeAt_le_of_inv inv t
  have hlb : cliqueSup (sortByLane g) ≤ (laneTrace g).1.length := by
    apply foldr_max_le
    intro x hx
    rcases List.mem_map.mp hx with ⟨a, _, rfl⟩
    calc activeAt (sortByLane g) a.startTime
        = activeAt ((laneTrace g).2.map Prod.fst) a.startTime := by rw [hfst]
      _ ≤ _ := activeAt_le_of_inv inv _
  have heq : cliqueSup (sortByLane g) = (laneTrace g).1.length :=
    le_antisymm hlb hclique
  refine ⟨fun t => htl ▸ hub t, ?_⟩
  rcases Nat.eq_zero_or_pos ((laneTrace g).1.length) with hzero | hgt
  · refine ⟨0, ?_⟩
    have h1 := hub 0
    rw [htl]
    omega
  · have hmem : cliqueSup (sortByLane g) ∈
        (sortByLane g).map fun a => activeAt (sortByLane g) a.startTime := by
      apply foldr_max_mem
      rw [show ((sortByLane g).map fun a =>
        activeAt (sortByLane g) a.startTime).foldr max 0 = cliqueSup (sortByLane g) from rfl]
      omega
    rcases List.mem_map.mp hmem with ⟨a, _, hval2⟩
    refine ⟨a.startTime, ?_⟩
    rw [htl, activeAt_perm hperm.symm, hval2, heq]

/-! ## Overlap grouping: transitive chains and separation -/

theorem overlaps_symm {a b : Appointment} (h : overlaps a b) : overlaps b a :=
  ⟨h.2, h.1⟩

theorem chainIn_symm {g : List Appointment} {a b : Appointment}
    (h : ChainIn g a b) : ChainIn g b a := by
  refine Relation.ReflTransGen.symmetric ?_ h
  intro x y hxy
  exact ⟨hxy.2.1, hxy.1, overlaps_symm hxy.2.2⟩

theorem chainIn_mono {g g' : List Appointment} (hsub : ∀ x ∈ g, x ∈ g')
    {a b : Appointment} (h : ChainIn g a b) : ChainIn g' a b := by
  refine Relation.ReflTransGen.mono ?_ h
  intro x y hxy
  exact ⟨hsub x hxy.1, hsub y hxy.2.1, hxy.2.2⟩

theorem groupGo_flatten :
    ∀ (rest cur : List Appointment) (curEnd : Int),
    (groupGo rest cur curEnd).flatten = cur ++ rest := by
  intro rest
  induction rest with
  | nil =>
    intro cur curEnd
    simp [groupGo]
  | cons a t ih =>
    intro cur curEnd
    rw [groupGo]
    split
    · rw [ih]
      simp
    · simp only [List.flatten_cons, ih]
      simp

theorem groupGo_spec :
    ∀ (rest cur : List Appointment) (curEnd : Int),
    rest.Pairwise startLE →
    (∀ x ∈ cur, ∀ b ∈ rest, x.startTime ≤ b.startTime) →
    (∃ m ∈ cur, getEndTime m = curEnd) →
    (∀ x ∈ cur, getEndTime x ≤ curEnd) →
    (∀ a ∈ cur, ∀ b ∈ cur, ChainIn cur a b) →
    (∀ a ∈ cur, 0 < a.duration) →
    (∀ a ∈ rest, 0 < a.duration) →
    (∀ g ∈ groupGo rest cur curEnd, ∀ a ∈ g, ∀ b ∈ g, ChainIn g a b) ∧
    (groupGo rest cur curEnd).Pairwise Sep ∧
    (∀ g ∈ groupGo rest cur curEnd, g ≠ []) := by
  intro rest
  induction rest with
  | nil =>
    intro cur curEnd _ _ h3 _ h5 _ _
    refine ⟨?_, ?_, ?_⟩
    · intro g hg
      rcases List.mem_singleton.mp hg with rfl
      exact h5
    · exact List.pairwise_singleton _ _
    · intro g hg
      rcases List.mem_singleton.mp hg with rfl
      obtain ⟨m, hm, _⟩ := h3
      intro he
      rw [he] at hm
      cases hm
  | cons a t ih =>
    intro cur curEnd hsort h2 h3 h4 h5 hposc hposr
    have hsort' : t.Pairwise startLE := (List.pairwise_cons.mp hsort).2
    have hhead : ∀ b ∈ t, startLE a b := (List.pairwise_cons.mp hsort).1
    have hposa : 0 < a.duration := hposr a (List.mem_cons_self _ _)
    have hposr' : ∀ x ∈ t, 0 < x.duration :=
      fun x hx => hposr x (List.mem_cons_of_mem _ hx)
    rw [groupGo]
    by_cases hja : a.startTime < curEnd
    · rw [if_pos hja]
      obtain ⟨m, hm, hme⟩ := h3
      have hedge : ChainIn (cur ++ [a]) m a := by
        refine Relation.ReflTransGen.single ⟨List.mem_append_left _ hm, by simp, ?_, ?_⟩
        · calc m.startTime ≤ a.startTime := h2 m hm a (List.mem_cons_self _ _)
            _ < getEndTime a := start_lt_end hposa
        · rw [hme]
          exact hja
      have h5' : ∀ x ∈ cur ++ [a], ∀ y ∈ cur ++ [a], ChainIn (cur ++ [a]) x y := by
        have hcc : ∀ x ∈ cur, ∀ y ∈ cur, ChainIn (cur ++ [a]) x y := fun x hx y hy =>
          chainIn_mono (fun z hz => List.mem_append_left _ hz) (h5 x hx y hy)
        have hca : ∀ x ∈ cur, ChainIn (cur ++ [a]) x a := fun x hx =>
          (hcc x hx m hm).trans hedge
        intro x hx y hy
        rcases List.mem_append.mp hx with hx' | hx'
        · rcases List.mem_append.mp hy with hy' | hy'
          · exact hcc x hx' y hy'
          · rw [List.mem_singleton.mp hy']
            exact hca x hx'
        · rw [List.mem_singleton.mp hx']
          rcases List.mem_append.mp hy with hy' | hy'
          · exact chainIn_symm (hca y hy')
          · rw [List.mem_singleton.mp hy']
            exact Relation.ReflTransGen.refl
      refine ih (cur ++ [a]) (max curEnd (getEndTime a)) hsort' ?_ ?_ ?_ h5' ?_ hposr'
      · intro x hx b hb
        rcases List.mem_append.mp hx with hx | hx
        · exact h2 x hx b (List.mem_cons_of_mem _ hb)
        · rcases List.mem_singleton.mp hx with rfl
          exact hhead b hb
      · rcases le_total curEnd (getEndTime a) with hc | hc
        · exact ⟨a, List.mem_append_right _ (List.mem_singleton.mpr rfl),
            (max_eq_right hc).symm⟩
        · exact ⟨m, List.mem_append_left _ hm, by rw [max_eq_left hc, hme]⟩
      · intro x hx
        rcases List.mem_append.mp hx with hx | hx
        · exact le_trans (h4 x hx) (le_max_left _ _)
        · rcases List.mem_singleton.mp hx with rfl
          exact le_max_right _ _
      · intro x hx
        rcases List.mem_append.mp hx with hx | hx
        · exact hposc x hx
        · rcases List.mem_singleton.mp hx with rfl
          exact hposa
    · rw [if_neg hja]
      have hcE : curEnd ≤ a.startTime := by omega
      obtain ⟨ic1, ic2, ic3⟩ := ih [a] (getEndTime a) hsort'
        (by
          intro x hx b hb
          rcases List.mem_singleton.mp hx with rfl
          exact hhead b hb)
        ⟨a, List.mem_singleton.mpr rfl, rfl⟩
        (by
          intro x hx
          rcases List.mem_singleton.mp hx with rfl
          exact le_refl _)
        (by
          intro x hx y hy
          rcases List.mem_singleton.mp hx with rfl
          rcases List.mem_singleton.mp hy with rfl
          exact Relation.ReflTransGen.refl)
        (by
          intro x hx
          rcases List.mem_singleton.mp hx with rfl
          exact hposa)
        hposr'
      refine ⟨?_, ?_, ?_⟩
      · intro g hg
        rcases List.mem_cons.mp hg with rfl | hg
        · exact h5
        · exact ic1 g hg
      · rw [List.pairwise_cons]
        refine ⟨?_, ic2⟩
        intro g hg x hx y hy
        have hyf : y ∈ (groupGo t [a] (getEndTime a)).flatten :=
          List.mem_flatten.mpr ⟨g, hg, hy⟩
        rw [groupGo_flatten] at hyf
        have hay : a.startTime ≤ y.startTime := by
          rcases List.mem_append.mp hyf with hyf | hyf
          · rcases List.mem_singleton.mp hyf with rfl
            exact le_refl _
          · exact hhead y hyf
        calc getEndTime x ≤ curEnd := h4 x hx
          _ ≤ a.startTime := hcE
          _ ≤ y.startTime := hay
      · intro g hg
        rcases List.mem_cons.mp hg with rfl | hg
        · obtain ⟨m, hm, _⟩ := h3
          intro he
          rw [he] at hm
          cases hm
        · exact ic3 g hg

theorem groups_flatten (l : List Appointment) :
    (groupOverlappingAppointments l).flatten = sortByStart l := by
  rcases hs : sortByStart l with _ | ⟨f, rest⟩
  · simp [groupOverlappingAppointments, hs]
  · simp [groupOverlappingAppointments, hs, groupGo_flatten]

theorem groups_perm (l : List Appointment) :
    (groupOverlappingAppointments l).flatten.Perm l := by
  rw [groups_flatten]
  exact List.perm_insertionSort startLE l

theorem groups_spec (l : List Appointment) (hpos : ∀ a ∈ l, 0 < a.duration) :
    (∀ g ∈ groupOverlappingAppointments l, ∀ a ∈ g, ∀ b ∈ g, ChainIn g a b) ∧
    (groupOverlappingAppointments l).Pairwise Sep ∧
    (∀ g ∈ groupOverlappingAppointments l, g ≠ []) := by
  have hposS : ∀ a ∈ sortByStart l, 0 < a.duration := fun a ha =>
    hpos a ((List.perm_insertionSort startLE l).subset ha)
  have hsorted : (sortByStart l).Pairwise startLE :=
    List.sorted_insertionSort startLE l
  rcases hs : sortByStart l with _ | ⟨f, rest⟩
  · refine ⟨?_, ?_, ?_⟩ <;> simp [groupOverlappingAppointments, hs]
  · rw [hs] at hsorted hposS
    have hfpos : 0 < f.duration := hposS f (List.mem_cons_self _ _)
    obtain ⟨c1, c2, c3⟩ := groupGo_spec rest [f] (getEndTime f)
      (List.pairwise_cons.mp hsorted).2
      (by
        intro x hx b hb
        rcases List.mem_singleton.mp hx with rfl
        exact (List.pairwise_cons.mp hsorted).1 b hb)
      ⟨f, List.mem_singleton.mpr rfl, rfl⟩
      (by
        intro x hx
        rcases List.mem_singleton.mp hx with rfl
        exact le_refl _)
      (by
        intro x hx y hy
        rcases List.mem_singleton.mp hx with rfl
        rcases List.mem_singleton.mp hy with rfl
        exact Relation.ReflTransGen.refl)
      (by
        intro x hx
        rcases List.mem_singleton.mp hx with rfl
        exact hfpos)
      (fun x hx => hposS x (List.mem_cons_of_mem _ hx))
    refine ⟨?_, ?_, ?_⟩ <;>
      simp only [groupOverlappingAppointments, hs] <;> assumption

/-! ## From the whole input to one group -/

theorem group_sub {l g : List Appointment}
    (hg : g ∈ groupOverlappingAppointments l) : ∀ a ∈ g, a ∈ l := by
  intro a ha
  exact (groups_perm l).subset (List.mem_flatten.mpr ⟨g, hg, ha⟩)

theorem group_pos {l g : List Appointment} (hpos : ∀ a ∈ l, 0 < a.duration)
    (hg : g ∈ groupOverlappingAppointments l) : ∀ a ∈ g, 0 < a.duration :=
  fun a ha => hpos a (group_sub hg a ha)

theorem group_ids_nodup {l g : List Appointment} (hids : (l.map (·.id)).Nodup)
    (hg : g ∈ groupOverlappingAppointments l) : (g.map (·.id)).Nodup := by
  have h1 : g.Sublist (groupOverlappingAppointments l).flatten :=
    List.sublist_flatten_of_mem hg
  have h2 : ((groupOverlappingAppointments l).flatten.map (·.id)).Nodup :=
    ((groups_perm l).map (·.id)).symm.nodup hids
  exact List.Nodup.sublist (h1.map _) h2

theorem group_lane_mem {g : List Appointment}
    (hpos : ∀ a ∈ g, 0 < a.duration) (hids : (g.map (·.id)).Nodup)
    {a : Appointment} (ha : a ∈ g) :
    ∃ i, (a, i) ∈ (laneTrace g).2 ∧
      mapGet (assignLanes g) a.id = some i ∧ i < (laneTrace g).1.length := by
  obtain ⟨inv, hfst, _⟩ := laneTrace_spec hpos
  have haS : a ∈ (laneTrace g).2.map Prod.fst := by
    rw [hfst]
    exact (List.perm_insertionSort laneBefore g).mem_iff.mpr ha
  rcases List.mem_map.mp haS with ⟨p, hp, hpe⟩
  have hpa : p = (a, p.2) := by
    rw [← hpe]
  refine ⟨p.2, by rwa [hpa] at hp, ?_, inv.laneLt p hp⟩
  rw [assignLanes_eq_proj hids]
  apply mapGet_proj
  · rw [hfst]
    exact ((List.perm_insertionSort laneBefore g).map (·.id)).symm.nodup hids
  · rwa [hpa] at hp

theorem layouts_map_appointment (l : List Appointment) (gridStartHour : Int) :
    (calculateAppointmentLayouts l gridStartHour).map (·.appointment) =
      (groupOverlappingAppointments l).flatten := by
  rw [calculateAppointmentLayouts]
  induction groupOverlappingAppointments l with
  | nil => rfl
  | cons g G ih =>
    simp only [List.map_cons, List.flatten_cons, List.map_append, ih]
    congr 1
    rw [layoutGroup, List.map_map]
    exact List.map_id' g

theorem mem_layouts_iff {l : List Appointment} {gridStartHour : Int}
    {r : AppointmentLayout} :
    r ∈ calculateAppointmentLayouts l gridStartHour ↔
      ∃ g ∈ groupOverlappingAppointments l, ∃ a ∈ g, r =
        { appointment := a
          lane := (mapGet (assignLanes g) a.id).getD 0
          totalLanes := totalLanesOf g
          top := calculateTopPosition a.startTime gridStartHour
          height := calculateHeight a.duration } := by
  rw [calculateAppointmentLayouts]
  constructor
  · intro hr
    rcases List.mem_flatten.mp hr with ⟨L, hL, hrL⟩
    rcases List.mem_map.mp hL with ⟨g, hg, rfl⟩
    rcases List.mem_map.mp hrL with ⟨a, ha, rfl⟩
    exact ⟨g, hg, a, ha, rfl⟩
  · rintro ⟨g, hg, a, ha, rfl⟩
    refine List.mem_flatten.mpr ⟨layoutGroup g gridStartHour, ?_, ?_⟩
    · exact List.mem_map_of_mem _ hg
    · exact List.mem_map_of_mem _ ha

theorem totalLanesOf_singleton (a : Appointment) : totalLanesOf [a] = 1 := rfl

/-! ## The specification's claims -/

/-- Claim C1 (amended: the appointments must also have distinct ids — the
claim fails on duplicated ids, see the counterexample).  For every list of
appointments with positive durations and distinct ids and every overlap
group produced by the pipeline, the `totalLanes` field written into that
group's layout records is `totalLanesOf g`, and it equals the maximum
number of the group's events simultaneously active at any single instant:
no instant has more active events, and some instant attains the bound. -/
theorem lane_count_optimality (l : List Appointment) (gridStartHour : Int)
    (hpos : ∀ a ∈ l, 0 < a.duration) (hids : (l.map (·.id)).Nodup) :
    ∀ g ∈ groupOverlappingAppointments l,
      (∀ r ∈ layoutGroup g gridStartHour, r.totalLanes = totalLanesOf g) ∧
      (∀ t, activeAt g t ≤ totalLanesOf g) ∧
      (∃ t, activeAt g t = totalLanesOf g) := by
  intro g hg
  obtain ⟨hub, hex⟩ :=
    group_lanes_optimal (group_pos hpos hg) (group_ids_nodup hids hg)
  refine ⟨?_, hub, hex⟩
  intro r hr
  rcases List.mem_map.mp hr with ⟨a, _, rfl⟩
  rfl

/-- Claim C1 as frozen is false: it quantifies over appointment lists with
positive durations only.  With two copies of the same id the `Map`
overwrites the first assignment, `totalLanes = 1`, yet two events are
active at instant 0. -/
theorem lane_count_duplicate_id_counterexample :
    0 < dupX.duration ∧
    groupOverlappingAppointments [dupX, dupX] = [[dupX, dupX]] ∧
    totalLanesOf [dupX, dupX] = 1 ∧
    activeAt [dupX, dupX] 0 = 2 := by
  decide

/-- Witness for `lane_count_optimality` at the two-event scenario. -/
theorem lane_count_optimality_witness :
    activeAt [apptA, apptB] 32400000 ≤ totalLanesOf [apptA, apptB] :=
  (lane_count_optimality [apptA, apptB] 8 (by decide) (by decide)
    [apptA, apptB] (by decide)).2.1 32400000

/-- Claim C2: for every input list of appointments with distinct ids and
positive durations, two distinct events of the same overlap group that are
assigned the same lane have disjoint time ranges. -/
theorem no_collision_invariant (l : List Appointment)
    (hpos : ∀ a ∈ l, 0 < a.duration) (hids : (l.map (·.id)).Nodup) :
    ∀ g ∈ groupOverlappingAppointments l, ∀ a ∈ g, ∀ b ∈ g, a ≠ b →
      mapGet (assignLanes g) a.id = mapGet (assignLanes g) b.id →
      getEndTime a ≤ b.startTime ∨ getEndTime b ≤ a.startTime := by
  intro g hg a ha b hb hne hlane
  have h1 := group_pos hpos hg
  have h2 := group_ids_nodup hids hg
  obtain ⟨inv, _, _⟩ := laneTrace_spec h1
  obtain ⟨i, hia, hga, _⟩ := group_lane_mem h1 h2 ha
  obtain ⟨j, hjb, hgb, _⟩ := group_lane_mem h1 h2 hb
  have hij : i = j := by
    rw [hga, hgb] at hlane
    exact Option.some.inj hlane
  have hpair : ((a, i) : Appointment × Nat) ≠ (b, j) := fun he =>
    hne (congrArg Prod.fst he)
  have hres := List.Pairwise.forall
    (R := fun p q : Appointment × Nat =>
      (p.2 = q.2 → getEndTime p.1 ≤ q.1.startTime) ∨
      (q.2 = p.2 → getEndTime q.1 ≤ p.1.startTime))
    (fun _ _ h => h.symm)
    (inv.disj.imp fun h => Or.inl h) hia hjb hpair
  rcases hres with h | h
  · exact Or.inl (h hij)
  · exact Or.inr (h hij.symm)

/-- Witness for `no_collision_invariant`: in the chain scenario A and C
share lane 0 and are disjoint. -/
theorem no_collision_invariant_witness :
    getEndTime chainA ≤ chainC.startTime ∨
      getEndTime chainC ≤ chainA.startTime :=
  no_collision_invariant [chainA, chainB, chainC] (by decide) (by decide)
    [chainA, chainB, chainC] (by decide) chainA (by decide) chainC (by decide)
    (by decide) (by decide)

/-- Claim C3: the groups partition the input (their concatenation is a
permutation of it); any two events of one group are joined by a transitive
chain of pairwise overlaps inside the group; events from different groups
never overlap (maximality); an event occurring once and overlapping no
other event forms the singleton group `[a]` with `totalLanes = 1`; and the
chain scenario A(9:00–9:45), B(9:30–10:15), C(10:00–10:45) yields the
single group `[A, B, C]` with `totalLanes = 2`. -/
theorem overlap_grouping_transitive_closure (l : List Appointment)
    (hpos : ∀ a ∈ l, 0 < a.duration) :
    (groupOverlappingAppointments l).flatten.Perm l ∧
    (∀ g ∈ groupOverlappingAppointments l, ∀ a ∈ g, ∀ b ∈ g, ChainIn g a b) ∧
    ((groupOverlappingAppointments l).Pairwise fun g h =>
      ∀ x ∈ g, ∀ y ∈ h, ¬ overlaps x y) ∧
    (∀ a ∈ l, List.count a l = 1 →
      (∀ b ∈ l, b ≠ a → ¬ overlaps a b) →
      [a] ∈ groupOverlappingAppointments l ∧ totalLanesOf [a] = 1) ∧
    groupOverlappingAppointments [chainA, chainB, chainC] =
      [[chainA, chainB, chainC]] ∧
    totalLanesOf [chainA, chainB, chainC] = 2 := by
  obtain ⟨c1, c2, c3⟩ := groups_spec l hpos
  refine ⟨groups_perm l, c1, ?_, ?_, by decide, by decide⟩
  · refine c2.imp ?_
    intro g h hsep x hx y hy hov
    exact absurd hov.2 (not_lt.mpr (hsep x hx y hy))
  · intro a ha hcount hnov
    have haf : a ∈ (groupOverlappingAppointments l).flatten :=
      (groups_perm l).mem_iff.mpr ha
    rcases List.mem_flatten.mp haf with ⟨g, hg, hag⟩
    have hall : ∀ x ∈ g, x = a := by
      intro x hx
      have hchain : Relation.ReflTransGen
          (fun u v => u ∈ g ∧ v ∈ g ∧ overlaps u v) a x := c1 g hg a hag x hx
      clear hx
      induction hchain with
      | refl => rfl
      | @tail b c hab hbc ih =>
        by_contra hne
        rw [ih] at hbc
        exact hnov c (group_sub hg c hbc.2.1) hne hbc.2.2
    have hgne := c3 g hg
    have hrep : g = List.replicate g.length a := List.eq_replicate_of_mem hall
    have hcnt : List.count a g ≤ 1 := by
      calc List.count a g
          ≤ List.count a (groupOverlappingAppointments l).flatten :=
            (List.sublist_flatten_of_mem hg).count_le a
        _ = List.count a l := (groups_perm l).count_eq a
        _ = 1 := hcount
    have hlen1 : g.length ≤ 1 := by
      rw [hrep, List.count_replicate_self] at hcnt
      exact hcnt
    have hlen : g.length = 1 :=
      le_antisymm hlen1 (List.length_pos.mpr hgne)
    have hga : g = [a] := by
      rw [hrep, hlen]
      rfl
    rw [hga] at hg
    exact ⟨hg, totalLanesOf_singleton a⟩

/-- Witness for `overlap_grouping_transitive_closure` at the chain
scenario. -/
theorem overlap_grouping_witness :
    (groupOverlappingAppointments [chainA, chainB, chainC]).flatten.Perm
      [chainA, chainB, chainC] :=
  (overlap_grouping_transitive_closure [chainA, chainB, chainC] (by decide)).1

/-- Claim C10: the pipeline returns exactly one layout record per input
appointment; every record has `lane < totalLanes` and `totalLanes ≥ 1`;
and within each group the set of assigned lane indices is exactly
`{0, …, totalLanes − 1}` (in particular lane 0 is used). -/
theorem lane_range_invariant (l : List Appointment) (gridStartHour : Int)
    (hpos : ∀ a ∈ l, 0 < a.duration) (hids : (l.map (·.id)).Nodup) :
    ((calculateAppointmentLayouts l gridStartHour).map (·.appointment)).Perm l ∧
    (∀ r ∈ calculateAppointmentLayouts l gridStartHour,
      r.lane < r.totalLanes ∧ 1 ≤ r.totalLanes) ∧
    (∀ g ∈ groupOverlappingAppointments l,
      (g.map fun a => (mapGet (assignLanes g) a.id).getD 0).toFinset =
        Finset.range (totalLanesOf g)) := by
  refine ⟨?_, ?_, ?_⟩
  · rw [layouts_map_appointment]
    exact groups_perm l
  · intro r hr
    rcases mem_layouts_iff.mp hr with ⟨g, hg, a, ha, rfl⟩
    have h1 := group_pos hpos hg
    have h2 := group_ids_nodup hids hg
    obtain ⟨i, _, hga, hilt⟩ := group_lane_mem h1 h2 ha
    have htl := totalLanesOf_eq_trace h1 h2
    constructor
    · show (mapGet (assignLanes g) a.id).getD 0 < totalLanesOf g
      rw [hga, htl]
      exact hilt
    · show 1 ≤ totalLanesOf g
      rw [htl]
      omega
  · intro g hg
    have h1 := group_pos hpos hg
    have h2 := group_ids_nodup hids hg
    have htl := totalLanesOf_eq_trace h1 h2
    obtain ⟨inv, hfst, _⟩ := laneTrace_spec h1
    obtain ⟨ws, hsub, hlen, hnd, _⟩ := inv.cover
    apply Finset.Subset.antisymm
    · intro x hx
      rcases List.mem_map.mp (List.mem_toFinset.mp hx) with ⟨a, ha, rfl⟩
      obtain ⟨i, _, hga, hilt⟩ := group_lane_mem h1 h2 ha
      rw [hga]
      exact Finset.mem_range.mpr (by rw [htl]; exact hilt)
    · intro x hx
      rw [htl] at hx
      have hxws : x ∈ ws.map Prod.snd := by
        refine nodup_lt_mem hnd (by simp [hlen]) ?_ x (Finset.mem_range.mp hx)
        intro y hy
        rcases List.mem_map.mp hy with ⟨q, hq, rfl⟩
        exact inv.laneLt q (hsub.subset hq)
      rcases List.mem_map.mp hxws with ⟨p, hpws, rfl⟩
      have hpacc : p ∈ (laneTrace g).2 := hsub.subset hpws
      have hpfst : p.1 ∈ sortByLane g := by
        rw [← hfst]
        exact List.mem_map_of_mem _ hpacc
      have hpg : p.1 ∈ g :=
        (List.perm_insertionSort laneBefore g).subset hpfst
      have hget : mapGet (assignLanes g) p.1.id = some p.2 := by
        rw [assignLanes_eq_proj h2]
        apply mapGet_proj
        · rw [hfst]
          exact ((List.perm_insertionSort laneBefore g).map (·.id)).symm.nodup h2
        · show (p.1, p.2) ∈ (laneTrace g).2
          simpa using hpacc
      apply List.mem_toFinset.mpr
      refine List.mem_map.mpr ⟨p.1, hpg, ?_⟩
      rw [hget]
      rfl

/-- Witness for `lane_range_invariant` at the two-event scenario. -/
theorem lane_range_invariant_witness :
    ((calculateAppointmentLayouts [apptA, apptB] 8).map (·.appointment)).Perm
      [apptA, apptB] :=
  (lane_range_invariant [apptA, apptB] 8 (by decide) (by decide)).1

/-- Claim C4: for A (9:00, 90 min) and B (9:00, 150 min) with
`gridStartHour = 8`, both land in one group with `totalLanes = 2`, B gets
lane 0 and A lane 1 (tie on start broken by longer duration first), A's
rectangle is top 120 px / height 180 px and B's top 120 px / height
300 px. -/
theorem tie_break_scenario :
    groupOverlappingAppointments [apptA, apptB] = [[apptA, apptB]] ∧
    calculateAppointmentLayouts [apptA, apptB] 8 =
      [⟨apptA, 1, 2, 120, 180⟩, ⟨apptB, 0, 2, 120, 300⟩] := by
  constructor
  · decide
  · have hg : groupOverlappingAppointments [apptA, apptB] = [[apptA, apptB]] := by
      decide
    have hl1 : mapGet (assignLanes [apptA, apptB]) apptA.id = some 1 := by decide
    have hl2 : mapGet (assignLanes [apptA, apptB]) apptB.id = some 0 := by decide
    have ht : totalLanesOf [apptA, apptB] = 2 := by decide
    rw [calculateAppointmentLayouts, hg]
    simp [layoutGroup, hl1, hl2, ht]
    norm_num [calculateTopPosition, calculateHeight, dateGetHours, dateGetMinutes,
      SLOT_HEIGHT, SLOT_DURATION, apptA, apptB]

/-- Claim C5: `filterByWorkingHours` keeps exactly the events whose start
hour is in `[startHour, endHour)` and whose end instant lies past
`startHour` (end hour greater, or equal with nonzero minutes); an event
starting exactly at `endHour:00` is excluded, and an event starting one
minute before `endHour` with a one-minute duration is included.  The hour
bounds `0 ≤ startHour` and `endHour ≤ 23` are the scheduler's documented
hour range (hours are `0–23`). -/
theorem working_hours_filter_condition (l : List Appointment)
    (startHour endHour : Int) (h0 : 0 ≤ startHour) (h1 : startHour < endHour)
    (h2 : endHour ≤ 23) :
    (∀ a, a ∈ filterByWorkingHours l startHour endHour ↔ a ∈ l ∧
      (dateGetHours a.startTime < endHour ∧
        startHour ≤ dateGetHours a.startTime ∧
        (startHour < dateGetHours (getEndTime a) ∨
          (dateGetHours (getEndTime a) = startHour ∧
            0 < dateGetMinutes (getEndTime a))))) ∧
    (∀ a ∈ l, dateGetHours a.startTime = endHour →
      a ∉ filterByWorkingHours l startHour endHour) ∧
    (∀ a ∈ l, dateGetHours a.startTime = endHour - 1 →
      dateGetMinutes a.startTime = 59 → a.duration = 1 →
      a ∈ filterByWorkingHours l startHour endHour) := by
  refine ⟨?_, ?_, ?_⟩
  · intro a
    rw [filterByWorkingHours, List.mem_filter, decide_eq_true_eq]
    tauto
  · intro a _ he hmem
    rw [filterByWorkingHours, List.mem_filter, decide_eq_true_eq] at hmem
    rw [dateGetHours] at he
    rcases hmem.2 with ⟨hA, _, _⟩
    rw [dateGetHours] at hA
    omega
  · intro a ha hh hm hd
    rw [filterByWorkingHours, List.mem_filter, decide_eq_true_eq]
    refine ⟨ha, ?_⟩
    simp only [dateGetHours, dateGetMinutes, getEndTime] at *
    rw [hd]
    constructor
    · omega
    · constructor
      · omega
      · omega

/-- Witness for `working_hours_filter_condition`: an event at 20:59 with a
one-minute duration survives the 8–21 filter. -/
theorem working_hours_filter_witness :
    (⟨"w", 20 * 3600000 + 59 * 60000, 1⟩ : Appointment) ∈
      filterByWorkingHours [⟨"w", 20 * 3600000 + 59 * 60000, 1⟩] 8 21 :=
  (working_hours_filter_condition [⟨"w", 20 * 3600000 + 59 * 60000, 1⟩] 8 21
    (by decide) (by decide) (by decide)).2.2
    ⟨"w", 20 * 3600000 + 59 * 60000, 1⟩ (by decide) (by decide) (by decide)
    (by decide)

/-- Claim C6 as frozen is false: an event starting at 20:00 with a 240-minute
duration (hours 8–21) has its start hour inside the window and a positive
duration, yet `filterByWorkingHours` drops it, because the end instant of
0:00 next day yields `endTimeHour = 0`, which fails the
`endsAfterStart` test. -/
theorem overrun_inclusion_counterexample :
    0 < overnight.duration ∧
    8 ≤ dateGetHours overnight.startTime ∧
    dateGetHours overnight.startTime < 21 ∧
    overnight ∈ [overnight] ∧
    overnight ∉ filterByWorkingHours [overnight] 8 21 := by
  decide

/-- Claim C6 (amended: the overrun must stay within the start's calendar
day — the wrap past midnight is what the counterexample exploits).  An
event with positive duration whose start hour lies in
`[startHour, endHour)` and whose end instant falls on the same calendar
day is kept even when it runs past `endHour`; and every event whose start
hour is before `startHour` is dropped even if its range overlaps the
window. -/
theorem overrun_inclusion_amended (l : List Appointment)
    (startHour endHour : Int) (a : Appointment) :
    (a ∈ l → 0 < a.duration →
      startHour ≤ dateGetHours a.startTime →
      dateGetHours a.startTime < endHour →
      a.startTime / 86400000 = getEndTime a / 86400000 →
      a ∈ filterByWorkingHours l startHour endHour) ∧
    (dateGetHours a.startTime < startHour →
      a ∉ filterByWorkingHours l startHour endHour) := by
  constructor
  · intro ha hd hs1 hs2 hday
    rw [filterByWorkingHours, List.mem_filter, decide_eq_true_eq]
    refine ⟨ha, ?_⟩
    simp only [dateGetHours, dateGetMinutes, getEndTime] at *
    omega
  · intro hlt hmem
    rw [filterByWorkingHours, List.mem_filter, decide_eq_true_eq] at hmem
    rcases hmem.2 with ⟨_, _, hge⟩
    rw [dateGetHours] at hlt hge
    omega

/-- Witness for `overrun_inclusion_amended`: a 9:00 event of 90 minutes
passes the 8–21 filter. -/
theorem overrun_inclusion_witness :
    (⟨"w", 9 * 3600000, 90⟩ : Appointment) ∈
      filterByWorkingHours [⟨"w", 9 * 3600000, 90⟩] 8 21 :=
  (overrun_inclusion_amended [⟨"w", 9 * 3600000, 90⟩] 8 21
    ⟨"w", 9 * 3600000, 90⟩).1 (by decide) (by decide) (by decide) (by decide)
    (by decide)

/-- Claim C7: the top offset is exactly the specification's formula
`((startHour⋅60 + startMinute) − gridStartHour⋅60) / slotDuration ⋅
slotHeight` with the grid's 30-minute / 60-px slots; the height is
`duration / slotDuration ⋅ slotHeight`; there is no clamping, so a start
before the grid start yields a negative offset; and a 9:00 start with
`gridStartHour = 8` yields 120 px. -/
theorem time_grid_geometry :
    (∀ (t gridStartHour : Int),
      calculateTopPosition t gridStartHour =
        specTopOffset (dateGetHours t) (dateGetMinutes t) gridStartHour
          SLOT_DURATION SLOT_HEIGHT) ∧
    (∀ d : Int, calculateHeight d = specHeight d SLOT_DURATION SLOT_HEIGHT) ∧
    (∀ (t gridStartHour : Int),
      dateGetHours t * 60 + dateGetMinutes t < gridStartHour * 60 →
      calculateTopPosition t gridStartHour < 0) ∧
    (∀ t : Int, dateGetHours t = 9 → dateGetMinutes t = 0 →
      calculateTopPosition t 8 = 120) := by
  refine ⟨?_, ?_, ?_, ?_⟩
  · intro t gridStartHour
    rw [calculateTopPosition, specTopOffset]
    push_cast
    ring
  · intro d
    rfl
  · intro t gridStartHour hlt
    rw [calculateTopPosition]
    have hx : (((dateGetHours t - gridStartHour) * 60 + dateGetMinutes t : Int) : ℚ)
        < 0 := by
      exact_mod_cast (by omega :
        (dateGetHours t - gridStartHour) * 60 + dateGetMinutes t < (0 : Int))
    have he : (((dateGetHours t - gridStartHour) * 60 + dateGetMinutes t : Int) : ℚ) /
        SLOT_DURATION * SLOT_HEIGHT =
        (((dateGetHours t - gridStartHour) * 60 + dateGetMinutes t : Int) : ℚ) * 2 := by
      rw [SLOT_DURATION, SLOT_HEIGHT]
      ring
    rw [he]
    exact mul_neg_of_neg_of_pos hx (by norm_num)
  · intro t hh hm
    rw [calculateTopPosition, hh, hm]
    norm_num [SLOT_DURATION, SLOT_HEIGHT]

/-- Witness for `time_grid_geometry`: 9:00 at `gridStartHour = 8` is
120 px down; 7:00 is negative. -/
theorem time_grid_geometry_witness :
    calculateTopPosition (9 * 3600000) 8 = 120 ∧
      calculateTopPosition (7 * 3600000) 8 < 0 :=
  ⟨time_grid_geometry.2.2.2 (9 * 3600000) (by decide) (by decide),
    time_grid_geometry.2.2.1 (7 * 3600000) 8 (by decide)⟩

/-- Claim C9 as frozen is false: the layout call never fails.  On an event
of duration −30 it returns a layout record with the negative height
−60 px instead of raising an `InvalidEventError` (no such error exists in
the code). -/
theorem invalid_event_counterexample :
    negDur.duration < 0 ∧
    (calculateAppointmentLayouts [negDur] 8).map (fun r => r.height) = [-60] := by
  constructor
  · decide
  · have hg : groupOverlappingAppointments [negDur] = [[negDur]] := by decide
    rw [calculateAppointmentLayouts, hg]
    simp [layoutGroup]
    norm_num [calculateHeight, SLOT_DURATION, SLOT_HEIGHT, negDur]

/-- Claim C9 (amended: the engine performs no validation).  The layout call
is total: it always returns one record per input event (empty input gives
an empty list), every record's height is the height formula applied to the
event's duration, and a duration `≤ 0` therefore produces a height `≤ 0`
rather than an error. -/
theorem invalid_event_no_validation (gridStartHour : Int) :
    calculateAppointmentLayouts [] gridStartHour = [] ∧
    (∀ l, ((calculateAppointmentLayouts l gridStartHour).map
      (·.appointment)).Perm l) ∧
    (∀ l r, r ∈ calculateAppointmentLayouts l gridStartHour →
      r.height = calculateHeight r.appointment.duration) ∧
    (∀ d : Int, d ≤ 0 → calculateHeight d ≤ 0) := by
  refine ⟨rfl, ?_, ?_, ?_⟩
  · intro l
    rw [layouts_map_appointment]
    exact groups_perm l
  · intro l r hr
    rcases mem_layouts_iff.mp hr with ⟨g, _, a, _, rfl⟩
    rfl
  · intro d hd
    rw [calculateHeight]
    have hx : ((d : ℚ)) ≤ 0 := by exact_mod_cast hd
    have he : (d : ℚ) / SLOT_DURATION * SLOT_HEIGHT = (d : ℚ) * 2 := by
      rw [SLOT_DURATION, SLOT_HEIGHT]
      ring
    rw [he]
    nlinarith

/-- Witness for `invalid_event_no_validation` at duration −30. -/
theorem invalid_event_no_validation_witness :
    calculateHeight (-30) ≤ 0 :=
  (invalid_event_no_validation 8).2.2.2 (-30) (by decide)

/-! ## Order independence (C8) -/

theorem laneStrict_asymm {a b : Appointment} (h1 : laneStrict a b)
    (h2 : laneStrict b a) : False := by
  rcases h1 with h | ⟨e, d⟩ <;> rcases h2 with h' | ⟨e', d'⟩ <;> omega

theorem sorted_laneStrict {g : List Appointment} (hnd : g.Nodup)
    (hkeys : ∀ a ∈ g, ∀ b ∈ g, a ≠ b →
      ¬(a.startTime = b.startTime ∧ a.duration = b.duration)) :
    (sortByLane g).Pairwise laneStrict := by
  have hnd' : (sortByLane g).Nodup :=
    (List.perm_insertionSort laneBefore g).symm.nodup hnd
  have hsorted : (sortByLane g).Pairwise laneBefore :=
    List.sorted_insertionSort laneBefore g
  refine List.Pairwise.imp_of_mem ?_ (hsorted.and hnd')
  intro a b ha hb h
  have hag : a ∈ g := (List.perm_insertionSort laneBefore g).subset ha
  have hbg : b ∈ g := (List.perm_insertionSort laneBefore g).subset hb
  rcases h.1 with hlt | ⟨he, hd⟩
  · exact Or.inl hlt
  · refine Or.inr ⟨he, ?_⟩
    have hne : a.duration ≠ b.duration :=
      fun hh => hkeys a hag b hbg h.2 ⟨he, hh⟩
    omega

theorem sortByLane_canonical {g₁ g₂ : List Appointment}
    (hperm : g₁.Perm g₂) (hnd : g₁.Nodup)
    (hkeys : ∀ a ∈ g₁, ∀ b ∈ g₁, a ≠ b →
      ¬(a.startTime = b.startTime ∧ a.duration = b.duration)) :
    sortByLane g₁ = sortByLane g₂ := by
  have hnd₂ : g₂.Nodup := hperm.nodup hnd
  have hkeys₂ : ∀ a ∈ g₂, ∀ b ∈ g₂, a ≠ b →
      ¬(a.startTime = b.startTime ∧ a.duration = b.duration) :=
    fun a ha b hb =>
      hkeys a (hperm.symm.subset ha) b (hperm.symm.subset hb)
  have hp₁ := sorted_laneStrict hnd hkeys
  have hp₂ := sorted_laneStrict hnd₂ hkeys₂
  have hps : (sortByLane g₁).Perm (sortByLane g₂) :=
    ((List.perm_insertionSort _ g₁).trans hperm).trans
      (List.perm_insertionSort _ g₂).symm
  haveI : IsAntisymm Appointment laneStrict :=
    ⟨fun a b h1 h2 => (laneStrict_asymm h1 h2).elim⟩
  exact List.eq_of_perm_of_sorted hps hp₁ hp₂

theorem layoutGroup_perm {g₁ g₂ : List Appointment} (hperm : g₁.Perm g₂)
    (hnd : g₁.Nodup)
    (hkeys : ∀ a ∈ g₁, ∀ b ∈ g₁, a ≠ b →
      ¬(a.startTime = b.startTime ∧ a.duration = b.duration))
    (gridStartHour : Int) :
    (layoutGroup g₁ gridStartHour).Perm (layoutGroup g₂ gridStartHour) := by
  have hs := sortByLane_canonical hperm hnd hkeys
  have ha : assignLanes g₁ = assignLanes g₂ := by
    rw [assignLanes, assignLanes, hs]
  have ht : totalLanesOf g₁ = totalLanesOf g₂ := by
    rw [totalLanesOf, totalLanesOf, ha]
  rw [layoutGroup, layoutGroup, ha, ht]
  exact hperm.map _

theorem mem_group_of_overlap {G : List (List Appointment)}
    {h : List Appointment} (hsep : G.Pairwise Sep) (hh : h ∈ G)
    {z w : Appointment} (hz : z ∈ h) (hw : w ∈ G.flatten)
    (hov : overlaps z w) : w ∈ h := by
  obtain ⟨P, S, rfl⟩ := List.append_of_mem hh
  rw [List.flatten_append, List.flatten_cons] at hw
  have hpw := List.pairwise_append.mp hsep
  rcases List.mem_append.mp hw with hw | hw
  · rcases List.mem_flatten.mp hw with ⟨g', hg', hwg⟩
    have hsep' : Sep g' h := hpw.2.2 g' hg' h (List.mem_cons_self _ _)
    exact absurd hov.1 (not_lt.mpr (hsep' w hwg z hz))
  · rcases List.mem_append.mp hw with hw | hw
    · exact hw
    · rcases List.mem_flatten.mp hw with ⟨g', hg', hwg⟩
      have hsep' : Sep h g' :=
        (List.pairwise_cons.mp hpw.2.1).1 g' hg'
      exact absurd hov.2 (not_lt.mpr (hsep' z hz w hwg))

theorem subset_group_of_chain {G : List (List Appointment)}
    {h : List Appointment} (hsep : G.Pairwise Sep) (hh : h ∈ G)
    {g : List Appointment} (hgsub : ∀ y ∈ g, y ∈ G.flatten)
    {x : Appointment} (hx : x ∈ h) :
    ∀ y, ChainIn g x y → y ∈ h := by
  intro y hchain
  unfold ChainIn at hchain
  induction hchain with
  | refl => exact hx
  | @tail b c _ hbc ih =>
    exact mem_group_of_overlap hsep hh ih (hgsub c hbc.2.1) hbc.2.2

theorem partition_match :
    ∀ (G₁ G₂ : List (List Appointment)),
    G₁.flatten.Perm G₂.flatten →
    G₁.flatten.Nodup →
    (∀ g ∈ G₁, ∀ a ∈ g, ∀ b ∈ g, ChainIn g a b) →
    G₁.Pairwise Sep → (∀ g ∈ G₁, g ≠ []) →
    (∀ g ∈ G₂, ∀ a ∈ g, ∀ b ∈ g, ChainIn g a b) →
    G₂.Pairwise Sep → (∀ g ∈ G₂, g ≠ []) →
    ∃ G₂' : List (List Appointment),
      G₂.Perm G₂' ∧ List.Forall₂ List.Perm G₁ G₂' := by
  intro G₁
  induction G₁ with
  | nil =>
    intro G₂ hperm _ _ _ _ _ _ hne₂
    have hf : G₂.flatten = [] := List.Perm.eq_nil hperm.symm
    have hG₂ : G₂ = [] := by
      cases G₂ with
      | nil => rfl
      | cons g S =>
        exfalso
        rw [List.flatten_cons] at hf
        exact hne₂ g (List.mem_cons_self _ _) (List.append_eq_nil.mp hf).1
    exact ⟨[], by rw [hG₂], List.Forall₂.nil⟩
  | cons g G₁' ih =>
    intro G₂ hperm hnod hconn₁ hsep₁ hne₁ hconn₂ hsep₂ hne₂
    have hgne : g ≠ [] := hne₁ g (List.mem_cons_self _ _)
    obtain ⟨x, hx⟩ := List.exists_mem_of_ne_nil g hgne
    have hxf₂ : x ∈ G₂.flatten :=
      hperm.subset (List.mem_flatten.mpr ⟨g, List.mem_cons_self _ _, hx⟩)
    rcases List.mem_flatten.mp hxf₂ with ⟨h, hh, hxh⟩
    have hg_sub_h : ∀ y ∈ g, y ∈ h := by
      intro y hy
      refine subset_group_of_chain hsep₂ hh ?_ hxh y
        (hconn₁ g (List.mem_cons_self _ _) x hx y hy)
      intro z hz
      exact hperm.subset (List.mem_flatten.mpr ⟨g, List.mem_cons_self _ _, hz⟩)
    have hh_sub_g : ∀ y ∈ h, y ∈ g := by
      intro y hy
      refine subset_group_of_chain hsep₁ (List.mem_cons_self g G₁') ?_ hx y
        (hconn₂ h hh x hxh y hy)
      intro z hz
      exact hperm.symm.subset (List.mem_flatten.mpr ⟨h, hh, hz⟩)
    have hgnd : g.Nodup :=
      List.Nodup.sublist
        (List.sublist_flatten_of_mem (List.mem_cons_self g G₁')) hnod
    have hnod₂ : G₂.flatten.Nodup := hperm.nodup hnod
    have hhnd : h.Nodup :=
      List.Nodup.sublist (List.sublist_flatten_of_mem hh) hnod₂
    have hgh : g.Perm h :=
      (hgnd.subperm fun {y} hy => hg_sub_h y hy).antisymm
        (hhnd.subperm fun {y} hy => hh_sub_g y hy)
    obtain ⟨P, S, rfl⟩ := List.append_of_mem hh
    have hmidflat : (P ++ h :: S).flatten.Perm (h ++ (P ++ S).flatten) := by
      have hmid : (P ++ h :: S).Perm (h :: (P ++ S)) := List.perm_middle
      have := hmid.flatten
      rwa [List.flatten_cons] at this
    have hflat₁ : (g ++ G₁'.flatten).Perm (h ++ (P ++ S).flatten) := by
      have hfc : (g :: G₁').flatten = g ++ G₁'.flatten := List.flatten_cons
      exact (hfc ▸ hperm).trans hmidflat
    have hflat' : G₁'.flatten.Perm ((P ++ S).flatten) := by
      rw [List.perm_iff_count]
      intro a
      have hc := List.perm_iff_count.mp hflat₁ a
      have hcg : List.count a g = List.count a h := hgh.count_eq a
      simp only [List.count_append] at hc
      omega
    rw [List.flatten_cons, List.nodup_append] at hnod
    obtain ⟨G₂'', hpermG, hforall⟩ := ih (P ++ S) hflat' hnod.2.1
      (fun g' hg' => hconn₁ g' (List.mem_cons_of_mem _ hg'))
      (List.pairwise_cons.mp hsep₁).2
      (fun g' hg' => hne₁ g' (List.mem_cons_of_mem _ hg'))
      (by
        intro g' hg'
        refine hconn₂ g' ?_
        rcases List.mem_append.mp hg' with hg' | hg'
        · exact List.mem_append.mpr (Or.inl hg')
        · exact List.mem_append.mpr (Or.inr (List.mem_cons_of_mem _ hg')))
      (List.Pairwise.sublist
        (List.Sublist.append (List.Sublist.refl P) (List.sublist_cons_self h S))
        hsep₂)
      (by
        intro g' hg'
        refine hne₂ g' ?_
        rcases List.mem_append.mp hg' with hg' | hg'
        · exact List.mem_append.mpr (Or.inl hg')
        · exact List.mem_append.mpr (Or.inr (List.mem_cons_of_mem _ hg')))
    refine ⟨h :: G₂'', ?_, List.Forall₂.cons hgh hforall⟩
    exact List.perm_middle.trans (hpermG.cons h)

theorem forall₂_layout_flatten {G₁ G₂' : List (List Appointment)}
    {gridStartHour : Int} (hf : List.Forall₂ List.Perm G₁ G₂')
    (hcond : ∀ g ∈ G₁, g.Nodup ∧ (∀ a ∈ g, ∀ b ∈ g, a ≠ b →
      ¬(a.startTime = b.startTime ∧ a.duration = b.duration))) :
    ((G₁.map fun g => layoutGroup g gridStartHour).flatten).Perm
      ((G₂'.map fun g => layoutGroup g gridStartHour).flatten) := by
  induction hf with
  | nil => exact List.Perm.refl _
  | @cons g h G₁t G₂t hgh _ ih =>
    simp only [List.map_cons, List.flatten_cons]
    refine List.Perm.append ?_ (ih ?_)
    · exact layoutGroup_perm hgh (hcond g (List.mem_cons_self _ _)).1
        (hcond g (List.mem_cons_self _ _)).2 gridStartHour
    · intro g' hg'
      exact hcond g' (List.mem_cons_of_mem _ hg')

/-- Claim C8: for two permuted input arrays of positive-duration,
distinct-id appointments in which no two appointments share both start
instant and duration, the full pipeline produces permuted (hence
set-equal) lists of layout records; and on identical input arrays the
output is identical (the pipeline is a pure function). -/
theorem order_independence (l₁ l₂ : List Appointment) (gridStartHour : Int)
    (hperm : l₁.Perm l₂)
    (hpos : ∀ a ∈ l₁, 0 < a.duration)
    (hids : (l₁.map (·.id)).Nodup)
    (hkeys : ∀ a ∈ l₁, ∀ b ∈ l₁, a ≠ b →
      ¬(a.startTime = b.startTime ∧ a.duration = b.duration)) :
    (calculateAppointmentLayouts l₁ gridStartHour).Perm
      (calculateAppointmentLayouts l₂ gridStartHour) ∧
    (∀ l, calculateAppointmentLayouts l gridStartHour =
      calculateAppointmentLayouts l gridStartHour) := by
  refine ⟨?_, fun l => rfl⟩
  have hpos₂ : ∀ a ∈ l₂, 0 < a.duration :=
    fun a ha => hpos a (hperm.symm.subset ha)
  have hnd₁ : l₁.Nodup := hids.of_map
  obtain ⟨hconn₁, hsep₁, hne₁⟩ := groups_spec l₁ hpos
  obtain ⟨hconn₂, hsep₂, hne₂⟩ := groups_spec l₂ hpos₂
  have hflat : (groupOverlappingAppointments l₁).flatten.Perm
      (groupOverlappingAppointments l₂).flatten :=
    ((groups_perm l₁).trans hperm).trans (groups_perm l₂).symm
  have hnodf : (groupOverlappingAppointments l₁).flatten.Nodup :=
    (groups_perm l₁).symm.nodup hnd₁
  obtain ⟨G₂'', hpermG, hforall⟩ := partition_match
    (groupOverlappingAppointments l₁) (groupOverlappingAppointments l₂)
    hflat hnodf hconn₁ hsep₁ hne₁ hconn₂ hsep₂ hne₂
  rw [calculateAppointmentLayouts, calculateAppointmentLayouts]
  refine List.Perm.trans (forall₂_layout_flatten hforall ?_) ?_
  · intro g hg
    constructor
    · exact List.Nodup.sublist (List.sublist_flatten_of_mem hg) hnodf
    · intro a ha b hb
      exact hkeys a (group_sub hg a ha) b (group_sub hg b hb)
  · exact ((hpermG.symm).map _).flatten

/-- Witness for `order_independence`: swapping A and B permutes the
output. -/
theorem order_independence_witness :
    (calculateAppointmentLayouts [apptA, apptB] 8).Perm
      (calculateAppointmentLayouts [apptB, apptA] 8) :=
  (order_independence [apptA, apptB] [apptB, apptA] 8 (by decide) (by decide)
    (by decide) (by decide)).1

end Scheduler
